import Mathlib

/-!
Verification of the ConfigIO repository: the routed traversal and mutation
engine in configio/utils.py (functions _get and _set), the codec selector
(_infer_codec), and the read/write facades in configio/__init__.py
(functions get and set).

Two embeddings are developed:

1. A pure tree embedding (Value) of the JSON/YAML document space, on which
   _get and _set are translated as structurally recursive functions.
   Python dictionaries are modelled as insertion-ordered association lists;
   dict membership, lookup and assignment are modelled by lookup and
   assocSet below.  deepcopy is the identity on pure trees.

2. A heap embedding (Heap, HObj) with explicit addresses, used to settle
   the aliasing claims: deepcopy allocates fresh addresses, dictionary
   mutation is in place, and sharing of mutable substructure is visible as
   reachability of a common address.
-/

namespace Cfg

/-- The Python value space produced by the JSON/YAML parsers: None, bools,
numbers, strings, lists, and dicts (insertion-ordered association lists of
string keys).  Route segments are modelled as strings. -/
inductive Value where
  | null
  | bool (b : Bool)
  | int (n : Int)
  | str (s : String)
  | arr (xs : List Value)
  | map (es : List (String × Value))

/-- Python type(x).__name__, as used in the error messages of _get and _set. -/
def Value.typeName : Value → String
  | .null => "NoneType"
  | .bool _ => "bool"
  | .int _ => "int"
  | .str _ => "str"
  | .arr _ => "list"
  | .map _ => "dict"

/-- isinstance(x, MutableMapping): true exactly for dicts. -/
def Value.isMap : Value → Bool
  | .map _ => true
  | _ => false

/-- Python dict lookup d[k] on an insertion-ordered association list
(first binding of the key wins). -/
def lookup (es : List (String × Value)) (k : String) : Option Value :=
  match es with
  | [] => none
  | (k1, v1) :: rest => if k1 = k then some v1 else lookup rest k

/-- Python dict assignment d[k] = v: update the binding in place when the
key is present, otherwise append the new binding at the end. -/
def assocSet (es : List (String × Value)) (k : String) (v : Value) :
    List (String × Value) :=
  match es with
  | [] => [(k, v)]
  | (k1, v1) :: rest =>
    if k1 = k then (k, v) :: rest else (k1, v1) :: assocSet rest k v

/-- Errors raised by _get (utils.py lines 62-67): a TypeError carrying the
offending segment and the type name of the non-mapping value, or a KeyError
carrying the missing segment. -/
inductive GetErr where
  | notAMapping (seg : String) (ty : String)
  | keyNotFound (seg : String)

/-- The traversal loop of _get (utils.py lines 60-69): walk the segments
left to right from cur = data. -/
def getGo (cur : Value) (route : List String) : Except GetErr Value :=
  match route with
  | [] => .ok cur
  | seg :: rest =>
    match cur with
    | .map es =>
      match lookup es seg with
      | some v => getGo v rest
      | none => .error (.keyNotFound seg)
    | w => .error (.notAMapping seg w.typeName)

/-- configio.utils._get (lines 41-69): a falsy route (None or empty, both
modelled as the empty list) returns the root as is; otherwise the route is
walked left to right. -/
def _get (data : Value) (route : List String) : Except GetErr Value :=
  if route = [] then .ok data else getGo data route

/-- Errors raised by _set.  All are TypeErrors in the source:
rootNotMapping is line 136, conflict is lines 149-151, finalParentNotMapping
is lines 158-161.  descendNonMapping models the TypeError that the loop
head membership test (seg in cur, line 142) would raise on a non-mapping
cur; the theorem for claim C10 shows that neither it nor
finalParentNotMapping is ever produced. -/
inductive SetErr where
  | rootNotMapping (ty : String)
  | conflict (seg : String) (ty : String)
  | finalParentNotMapping (seg : String) (ty : String)
  | descendNonMapping (seg : String) (ty : String)

/-- The parent walk and final assignment of _set (utils.py lines 140-164),
purified into writeback style: segs is route[:-1], last is route[-1].
In the source the loop mutates the deep copy in place through cur; here
every mutated dict is rebuilt with assocSet on the way back up. -/
def setWalk (cur : Value) (segs : List String) (last : String)
    (value : Value) (ow : Bool) : Except SetErr Value :=
  match segs with
  | [] =>
    -- lines 157-163: the defensive final-parent guard, then cur[route[-1]] = value
    match cur with
    | .map es => .ok (.map (assocSet es last value))
    | w => .error (.finalParentNotMapping last w.typeName)
  | seg :: rest =>
    match cur with
    | .map es =>
      match lookup es seg with
      | some nxt =>
        if nxt.isMap then
          -- segment present with a mapping value: descend
          match setWalk nxt rest last value ow with
          | .ok nxt1 => .ok (.map (assocSet es seg nxt1))
          | .error e => .error e
        else if ow then
          -- lines 145-147: replace the conflicting value with {} and descend
          match setWalk (.map []) rest last value ow with
          | .ok nxt1 => .ok (.map (assocSet es seg nxt1))
          | .error e => .error e
        else
          -- lines 148-151
          .error (.conflict seg nxt.typeName)
      | none =>
        -- lines 152-154: missing key, create a fresh {} and descend
        match setWalk (.map []) rest last value ow with
        | .ok nxt1 => .ok (.map (assocSet es seg nxt1))
        | .error e => .error e
    | w => .error (.descendNonMapping seg w.typeName)

/-- The bootstrap of _set for a non-empty route (utils.py lines 124-138):
deep copy (the identity on pure trees), bootstrap a None root to {},
and either reject or overwrite a non-mapping root, then run the walk. -/
def setNonEmpty (data : Value) (parents : List String) (last : String)
    (value : Value) (ow : Bool) : Except SetErr Value :=
  match data with
  | .null => setWalk (.map []) parents last value ow
  | .map es => setWalk (.map es) parents last value ow
  | w =>
    if ow then setWalk (.map []) parents last value ow
    else .error (.rootNotMapping w.typeName)

/-- configio.utils._set (lines 72-164).  A falsy route returns value itself
(line 122, no copy is made); otherwise the parents route[:-1] are walked and
value is assigned at route[-1]. -/
def _set (data : Value) (route : List String) (value : Value)
    (ow : Bool) : Except SetErr Value :=
  if h : route = [] then .ok value
  else setNonEmpty data route.dropLast (route.getLast h) value ow

/-! ## Facade model: codec selector and the get/set entry points

configio/__init__.py.  File system and parser behaviour (jsonio.load,
yamlio.load, jsonio.save, yamlio.save — repository backends that sit
behind aiofiles and json/yaml) is supplied as an oracle (Backend below),
so the theorems quantify over every possible backend outcome; only the
facade control flow, which is in the source, is modelled. -/

/-- The serialization formats (configio.schemas.Codec). -/
inductive Codec where
  | json
  | yaml

/-- The codec argument as the facade receives it: a genuine Codec member,
or some other object (isinstance(codec, Codec) is False, utils.py line 26). -/
inductive CodecArg where
  | json
  | yaml
  | notACodec

/-- The two TypeErrors of _infer_codec: an explicit codec argument that is
not a Codec (line 28), or an unrecognized file extension (line 34). -/
inductive InferErr where
  | invalidCodecArg
  | invalidExtension (ext : String)

/-- str.lower() on the extension: lowercase each character.  This is
String.toLower, spelled out over the character list so that it evaluates
by kernel reduction. -/
def pyLower (s : String) : String := ⟨s.data.map Char.toLower⟩

/-- configio.utils._infer_codec (lines 14-34).  suffix is
pathlib.Path(path).suffix, the final extension of the path including the
dot (pathlib is an external collaborator; the facade theorems quantify
over the suffix). -/
def _infer_codec (suffix : String) (codec : Option CodecArg) :
    Except InferErr Codec :=
  match codec with
  | some .json => .ok .json
  | some .yaml => .ok .yaml
  | some .notACodec => .error .invalidCodecArg
  | none =>
    let ext := pyLower suffix
    if ext = ".json" then .ok .json
    else if ext = ".yml" ∨ ext = ".yaml" then .ok .yaml
    else .error (.invalidExtension ext)

/-- Python exceptions that flow through the facade bodies. -/
inductive PyExn where
  | osError
  | typeError
  | keyError
  | valueError
  | jsonDecodeError
  | yamlError

/-- Oracle for the external backends: the outcome of this call's load for
each codec, and of save as a function of the document being persisted. -/
structure Backend where
  loadJson : Except PyExn Value
  loadYaml : Except PyExn Value
  saveJson : Value → Except PyExn Unit
  saveYaml : Value → Except PyExn Unit

/-- The load the facade performs for a resolved codec. -/
def Backend.load (B : Backend) : Codec → Except PyExn Value
  | .json => B.loadJson
  | .yaml => B.loadYaml

/-- The save the facade performs for a resolved codec. -/
def Backend.save (B : Backend) : Codec → Value → Except PyExn Unit
  | .json => B.saveJson
  | .yaml => B.saveYaml

/-- The _get errors as Python exception classes. -/
def GetErr.toExn : GetErr → PyExn
  | .notAMapping _ _ => .typeError
  | .keyNotFound _ => .keyError

/-- The except clause of get (lines 120-125): OSError is re-raised;
KeyError, TypeError, JSONDecodeError and YAMLError produce None
(modelled as Value.null, the Python return None); anything else
(e.g. ValueError) propagates. -/
def getHandler : PyExn → Except PyExn Value
  | .osError => .error .osError
  | .keyError => .ok .null
  | .typeError => .ok .null
  | .jsonDecodeError => .ok .null
  | .yamlError => .ok .null
  | e => .error e

/-- configio.get (lines 70-125).  The codec is inferred OUTSIDE the try
block (line 109), so an infer failure escapes as a TypeError.  Inside the
try, the document is loaded and _get applied; the dead fallthrough
return None of line 119 has no counterpart because Codec has exactly the
two handled members. -/
def get (B : Backend) (suffix : String) (codec : Option CodecArg)
    (route : List String) : Except PyExn Value :=
  match _infer_codec suffix codec with
  | .error _ => .error .typeError
  | .ok fmt =>
    let body : Except PyExn Value :=
      match B.load fmt with
      | .error e => .error e
      | .ok data =>
        match _get data route with
        | .ok v => .ok v
        | .error e => .error e.toExn
    match body with
    | .ok v => .ok v
    | .error e => getHandler e

/-- The except clause of set (lines 192-197): OSError is re-raised;
KeyError, TypeError, ValueError, JSONDecodeError and YAMLError produce
False. -/
def setHandler : PyExn → Except PyExn Bool
  | .osError => .error .osError
  | _ => .ok false

/-- The observable outcome of one configio.set call: the returned value or
escaped exception, and the document handed to the backend save primitive,
if save was invoked at all. -/
structure SetCall where
  result : Except PyExn Bool
  saved : Option (Codec × Value)

/-- configio.set (lines 128-197).  The codec is inferred OUTSIDE the try
block (line 177).  Inside the try: load, mutate via _set (every _set error
is a TypeError), then persist via the backend save; True on completion.
The dead return False of line 191 has no counterpart because Codec has
exactly the two handled members. -/
def set (B : Backend) (suffix : String) (codec : Option CodecArg)
    (route : List String) (value : Value) (ow : Bool) : SetCall :=
  match _infer_codec suffix codec with
  | .error _ => ⟨.error .typeError, none⟩
  | .ok fmt =>
    match B.load fmt with
    | .error e => ⟨setHandler e, none⟩
    | .ok data =>
      match _set data route value ow with
      | .error _ => ⟨setHandler .typeError, none⟩
      | .ok newData =>
        match B.save fmt newData with
        | .error e => ⟨setHandler e, some (fmt, newData)⟩
        | .ok _ => ⟨.ok true, some (fmt, newData)⟩

/-! ## Heap model

An explicit-address embedding of the Python object graph, used for the
aliasing claims C1 and C4.  Only dicts are mutable containers here;
None and the scalars are immutable leaves, and sequences (which _set and
_get treat exactly like scalars: they are not MutableMappings) are
subsumed by the scalar leaf.  deepcopy is modelled as a fueled clone that
allocates fresh addresses for the whole tree; it fails only when the fuel
does not cover the depth of the value, so every theorem quantifies over
the fuel. -/

/-- A Python heap object: None, an immutable scalar leaf, or a dict whose
values are addresses. -/
inductive HObj where
  | null
  | scalar (s : String)
  | dict (es : List (String × Nat))

/-- The heap: object at address a is objs[a]; allocation appends. -/
structure Heap where
  objs : List HObj

def Heap.size (h : Heap) : Nat := h.objs.length

def Heap.get (h : Heap) (a : Nat) : Option HObj := h.objs[a]?

/-- In-place update of the object at an existing address. -/
def Heap.set (h : Heap) (a : Nat) (o : HObj) : Heap := ⟨h.objs.set a o⟩

/-- Allocation of a fresh object at address h.size. -/
def Heap.push (h : Heap) (o : HObj) : Heap := ⟨h.objs ++ [o]⟩

/-- Dict lookup on address-valued association lists. -/
def lookupA (es : List (String × Nat)) (k : String) : Option Nat :=
  match es with
  | [] => none
  | (k1, a1) :: rest => if k1 = k then some a1 else lookupA rest k

/-- Dict assignment on address-valued association lists. -/
def assocSetA (es : List (String × Nat)) (k : String) (a : Nat) :
    List (String × Nat) :=
  match es with
  | [] => [(k, a)]
  | (k1, a1) :: rest =>
    if k1 = k then (k, a) :: rest else (k1, a1) :: assocSetA rest k a

/-- Clone each value address of a dict entry list, left to right; rec is
the one-level-down depth-limited clone. -/
def dcopyGo (rec : Heap → Nat → Option (Heap × Nat)) :
    Heap → List (String × Nat) → Option (Heap × List (String × Nat))
  | h, [] => some (h, [])
  | h, (k, a) :: rest =>
    match rec h a with
    | none => none
    | some (h1, a1) =>
      match dcopyGo rec h1 rest with
      | none => none
      | some (h2, rest1) => some (h2, (k, a1) :: rest1)

/-- One level of deepcopy: leaves are cloned directly, dict entries are
cloned with rec, then a fresh dict is allocated. -/
def dcopyStep (rec : Heap → Nat → Option (Heap × Nat)) (h : Heap) (a : Nat) :
    Option (Heap × Nat) :=
  match h.get a with
  | none => none
  | some .null => some (h.push .null, h.size)
  | some (.scalar s) => some (h.push (.scalar s), h.size)
  | some (.dict es) =>
    match dcopyGo rec h es with
    | none => none
    | some (h1, es1) => some (h1.push (.dict es1), h1.size)

/-- copy.deepcopy of the object at address a: clone the whole tree into
fresh addresses, returning the extended heap and the root of the clone.
The fuel bounds the depth; None models only fuel exhaustion or a dangling
address, neither of which arises for a well-formed finite document. -/
def dcopy : Nat → Heap → Nat → Option (Heap × Nat)
  | 0 => fun _ _ => none
  | fuel + 1 => dcopyStep (dcopy fuel)

/-- Heap-level errors of _set; all TypeErrors in the source.  copyFailed
marks fuel exhaustion of the modelled deepcopy only. -/
inductive HErr where
  | rootNotMapping
  | conflict (seg : String)
  | finalParentNotMapping (seg : String)
  | descendNonMapping (seg : String)
  | copyFailed

/-- The parent walk and final assignment of _set on the heap (utils.py
lines 140-164), mutating dicts in place through cur.  The heap after the
call is returned in every case, also on error: a raise does not roll
mutations back. -/
def hsetWalk (h : Heap) (cur : Nat) (segs : List String) (last : String)
    (va : Nat) (ow : Bool) : Heap × Option HErr :=
  match segs with
  | [] =>
    match h.get cur with
    | some (.dict es) => (h.set cur (.dict (assocSetA es last va)), none)
    | _ => (h, some (.finalParentNotMapping last))
  | seg :: rest =>
    match h.get cur with
    | some (.dict es) =>
      match lookupA es seg with
      | some nxt =>
        match h.get nxt with
        | some (.dict _) => hsetWalk h nxt rest last va ow
        | _ =>
          if ow then
            -- nxt = {}; cur[seg] = nxt; cur = nxt (the fresh address is h.size)
            hsetWalk ((h.push (.dict [])).set cur (.dict (assocSetA es seg h.size)))
              h.size rest last va ow
          else (h, some (.conflict seg))
      | none =>
        -- nxt = {}; cur[seg] = nxt; cur = nxt
        hsetWalk ((h.push (.dict [])).set cur (.dict (assocSetA es seg h.size)))
          h.size rest last va ow
    | _ => (h, some (.descendNonMapping seg))

/-- configio.utils._set on the heap (lines 72-164).  A falsy route returns
the value address itself with the heap untouched (line 122: return value —
no copy).  Otherwise the input document is deep-copied, the copied root is
bootstrapped (None becomes {}; a non-mapping root is rejected or replaced
by {} under overwrite_conflicts), the parents are walked and the value
address is assigned under the final segment. -/
def hset (h : Heap) (dataA : Nat) (route : List String) (va : Nat)
    (ow : Bool) (fuel : Nat) : Heap × Except HErr Nat :=
  if hr : route = [] then (h, .ok va)
  else
    match dcopy fuel h dataA with
    | none => (h, .error .copyFailed)
    | some (h1, rootA) =>
      match h1.get rootA with
      | some .null =>
        -- bootstrap: root = cur = {} (fresh address h1.size)
        match hsetWalk (h1.push (.dict [])) h1.size route.dropLast
            (route.getLast hr) va ow with
        | (h3, none) => (h3, .ok h1.size)
        | (h3, some e) => (h3, .error e)
      | some (.dict _) =>
        match hsetWalk h1 rootA route.dropLast (route.getLast hr) va ow with
        | (h3, none) => (h3, .ok rootA)
        | (h3, some e) => (h3, .error e)
      | _ =>
        if ow then
          -- root = cur = {} replacing the non-mapping root
          match hsetWalk (h1.push (.dict [])) h1.size route.dropLast
              (route.getLast hr) va ow with
          | (h3, none) => (h3, .ok h1.size)
          | (h3, some e) => (h3, .error e)
        else (h1, .error .rootNotMapping)

/-- Address b is reachable from address a through dict entries: the
transitive closure of "is a value of".  A common reachable dict address
is shared mutable substructure. -/
inductive Reach (h : Heap) : Nat → Nat → Prop where
  | refl (a : Nat) : Reach h a a
  | step {a b c : Nat} {es : List (String × Nat)} {k : String} :
      Reach h a b → h.get b = some (.dict es) → (k, c) ∈ es → Reach h a c

/-- Boolean well-formedness of a heap: every dict entry points below the
heap size (no dangling addresses). -/
def Heap.wf (h : Heap) : Bool :=
  h.objs.all fun o =>
    match o with
    | .dict es => es.all fun p => decide (p.2 < h.objs.length)
    | _ => true

/-- The fresh region [n, h.size): every dict in it points into it. -/
def RegionClosed (h : Heap) (n : Nat) : Prop :=
  ∀ a es, n ≤ a → h.get a = some (.dict es) →
    ∀ p : String × Nat, p ∈ es → n ≤ p.2 ∧ p.2 < h.size

/-- The fresh region, allowing pointers to the installed value address. -/
def RegionClosedV (h : Heap) (n : Nat) (va : Nat) : Prop :=
  ∀ a es, n ≤ a → h.get a = some (.dict es) →
    ∀ p : String × Nat, p ∈ es → (n ≤ p.2 ∧ p.2 < h.size) ∨ p.2 = va

end Cfg

namespace Cfg

/-! Basic lemmas about dict lookup and assignment. -/

theorem lookup_assocSet_self (es : List (String × Value)) (k : String) (v : Value) :
    lookup (assocSet es k v) k = some v := by
  induction es with
  | nil => simp [assocSet, lookup]
  | cons p rest ih =>
    obtain ⟨k1, v1⟩ := p
    by_cases h : k1 = k
    · subst h; simp [assocSet, lookup]
    · simp [assocSet, lookup, h, ih]

theorem assocSet_assocSet (es : List (String × Value)) (k : String) (v w : Value) :
    assocSet (assocSet es k v) k w = assocSet es k w := by
  induction es with
  | nil => simp [assocSet]
  | cons p rest ih =>
    obtain ⟨k1, v1⟩ := p
    by_cases h : k1 = k
    · subst h; simp [assocSet]
    · simp [assocSet, h, ih]

/-- A successful setWalk always returns a dict. -/
theorem setWalk_ok_isMap : ∀ (segs : List String) (cur : Value) (last : String)
    (value : Value) (ow : Bool) (r : Value),
    setWalk cur segs last value ow = .ok r → ∃ es2, r = .map es2 := by
  intro segs
  cases segs with
  | nil =>
    intro cur last value ow r h
    cases cur <;> simp [setWalk] at h
    exact ⟨_, h.symm⟩
  | cons seg rest =>
    intro cur last value ow r h
    cases cur <;> simp only [setWalk] at h <;> try exact absurd h (by simp)
    split at h
    · split at h
      · split at h
        · simp at h; exact ⟨_, h.symm⟩
        · simp at h
      · split at h
        · split at h
          · simp at h; exact ⟨_, h.symm⟩
          · simp at h
        · simp at h
    · split at h
      · simp at h; exact ⟨_, h.symm⟩
      · simp at h

/-- Round-trip for the parent walk: reading back along segs ++ [last]
recovers the value just written. -/
theorem setWalk_roundtrip : ∀ (segs : List String) (cur : Value) (last : String)
    (value : Value) (ow : Bool) (r : Value),
    setWalk cur segs last value ow = .ok r →
    getGo r (segs ++ [last]) = .ok value := by
  intro segs
  induction segs with
  | nil =>
    intro cur last value ow r h
    cases cur <;> simp [setWalk] at h
    subst h
    simp [getGo, lookup_assocSet_self]
  | cons seg rest ih =>
    intro cur last value ow r h
    cases cur <;> simp only [setWalk] at h <;> try exact absurd h (by simp)
    rename_i es
    split at h
    · rename_i nxt hl
      split at h
      · split at h
        · rename_i nxt1 hrec
          simp at h; subst h
          simp [getGo, lookup_assocSet_self]
          exact ih _ _ _ _ _ hrec
        · simp at h
      · split at h
        · split at h
          · rename_i nxt1 hrec
            simp at h; subst h
            simp [getGo, lookup_assocSet_self]
            exact ih _ _ _ _ _ hrec
          · simp at h
        · simp at h
    · split at h
      · rename_i nxt1 hrec
        simp at h; subst h
        simp [getGo, lookup_assocSet_self]
        exact ih _ _ _ _ _ hrec
      · simp at h

theorem setNonEmpty_roundtrip (data : Value) (parents : List String) (last : String)
    (value : Value) (ow : Bool) (r : Value)
    (h : setNonEmpty data parents last value ow = .ok r) :
    getGo r (parents ++ [last]) = .ok value := by
  cases data <;> simp only [setNonEmpty] at h
  case null => exact setWalk_roundtrip _ _ _ _ _ _ h
  case map es => exact setWalk_roundtrip _ _ _ _ _ _ h
  all_goals
    split at h
    · exact setWalk_roundtrip _ _ _ _ _ _ h
    · simp at h

/-- Bridge: _set on a route written as parents ++ [last] runs the
bootstrap-and-walk phase. -/
theorem set_append_last (data : Value) (parents : List String) (last : String)
    (value : Value) (ow : Bool) :
    _set data (parents ++ [last]) value ow = setNonEmpty data parents last value ow := by
  have hne : parents ++ [last] ≠ [] := by simp
  rw [_set, dif_neg hne]
  congr 1
  · simp
  · simp [List.getLast_append]

/-- Applying the same parent walk to its own result is a no-op success. -/
theorem setWalk_idem : ∀ (segs : List String) (cur : Value) (last : String)
    (value : Value) (ow : Bool) (r : Value),
    setWalk cur segs last value ow = .ok r →
    setWalk r segs last value ow = .ok r := by
  intro segs
  induction segs with
  | nil =>
    intro cur last value ow r h
    cases cur <;> simp [setWalk] at h
    subst h
    simp [setWalk, assocSet_assocSet]
  | cons seg rest ih =>
    intro cur last value ow r h
    cases cur <;> simp only [setWalk] at h <;> try exact absurd h (by simp)
    rename_i es
    split at h
    · rename_i nxt hl
      split at h
      · split at h
        · rename_i nxt1 hrec
          simp at h; subst h
          obtain ⟨es2, hes2⟩ := setWalk_ok_isMap _ _ _ _ _ _ hrec
          simp only [setWalk, lookup_assocSet_self]
          rw [hes2] at hrec ⊢
          simp only [Value.isMap, if_pos rfl]
          rw [ih _ _ _ _ _ hrec]
          simp [assocSet_assocSet]
        · simp at h
      · split at h
        · split at h
          · rename_i nxt1 hrec
            simp at h; subst h
            obtain ⟨es2, hes2⟩ := setWalk_ok_isMap _ _ _ _ _ _ hrec
            simp only [setWalk, lookup_assocSet_self]
            rw [hes2] at hrec ⊢
            simp only [Value.isMap, if_pos rfl]
            rw [ih _ _ _ _ _ hrec]
            simp [assocSet_assocSet]
          · simp at h
        · simp at h
    · rename_i hl
      split at h
      · rename_i nxt1 hrec
        simp at h; subst h
        obtain ⟨es2, hes2⟩ := setWalk_ok_isMap _ _ _ _ _ _ hrec
        simp only [setWalk, lookup_assocSet_self]
        rw [hes2] at hrec ⊢
        simp only [Value.isMap, if_pos rfl]
        rw [ih _ _ _ _ _ hrec]
        simp [assocSet_assocSet]
      · simp at h

theorem setNonEmpty_idem (data : Value) (parents : List String) (last : String)
    (value : Value) (ow : Bool) (r : Value)
    (h : setNonEmpty data parents last value ow = .ok r) :
    setNonEmpty r parents last value ow = .ok r := by
  have hw : ∃ cur, setWalk cur parents last value ow = .ok r := by
    cases data <;> simp only [setNonEmpty] at h
    case null => exact ⟨_, h⟩
    case map es => exact ⟨_, h⟩
    all_goals
      split at h
      · exact ⟨_, h⟩
      · simp at h
  obtain ⟨cur, hw⟩ := hw
  obtain ⟨es2, rfl⟩ := setWalk_ok_isMap _ _ _ _ _ _ hw
  simpa [setNonEmpty] using setWalk_idem _ _ _ _ _ _ hw

/-- With overwrite_conflicts=True the walk from any dict always succeeds. -/
theorem setWalk_total_ow : ∀ (segs : List String) (es : List (String × Value))
    (last : String) (value : Value),
    ∃ r, setWalk (.map es) segs last value true = .ok r := by
  intro segs
  induction segs with
  | nil => intro es last value; exact ⟨_, rfl⟩
  | cons seg rest ih =>
    intro es last value
    cases hl : lookup es seg with
    | some nxt =>
      cases nxt with
      | map es2 =>
        obtain ⟨r, hr⟩ := ih es2 last value
        exact ⟨.map (assocSet es seg r), by simp [setWalk, hl, Value.isMap, hr]⟩
      | null | bool _ | int _ | str _ | arr _ =>
        obtain ⟨r, hr⟩ := ih [] last value
        exact ⟨.map (assocSet es seg r), by simp [setWalk, hl, Value.isMap, hr]⟩
    | none =>
      obtain ⟨r, hr⟩ := ih [] last value
      exact ⟨.map (assocSet es seg r), by simp [setWalk, hl, hr]⟩

/-- Any error of the walk from a dict is a path conflict. -/
theorem setWalk_err : ∀ (segs : List String) (es : List (String × Value))
    (last : String) (value : Value) (ow : Bool) (e : SetErr),
    setWalk (.map es) segs last value ow = .error e →
    ∃ s ty, e = .conflict s ty := by
  intro segs
  induction segs with
  | nil => intro es last value ow e h; simp [setWalk] at h
  | cons seg rest ih =>
    intro es last value ow e h
    simp only [setWalk] at h
    split at h
    · rename_i nxt hl
      split at h
      · rename_i hm
        cases nxt <;> simp [Value.isMap] at hm
        split at h
        · simp at h
        · rename_i e1 hrec
          simp at h; subst h
          exact ih _ _ _ _ _ hrec
      · split at h
        · split at h
          · simp at h
          · rename_i e1 hrec
            simp at h; subst h
            exact ih _ _ _ _ _ hrec
        · simp at h; exact ⟨_, _, h.symm⟩
    · split at h
      · simp at h
      · rename_i e1 hrec
        simp at h; subst h
        exact ih _ _ _ _ _ hrec

theorem setNonEmpty_total_ow (data : Value) (parents : List String) (last : String)
    (value : Value) : ∃ r, setNonEmpty data parents last value true = .ok r := by
  rcases data with _ | b | n | s | xs | es <;> simp only [setNonEmpty, if_true]
  · exact setWalk_total_ow parents [] last value
  · exact setWalk_total_ow parents [] last value
  · exact setWalk_total_ow parents [] last value
  · exact setWalk_total_ow parents [] last value
  · exact setWalk_total_ow parents [] last value
  · exact setWalk_total_ow parents es last value

/-- Any exception of _set is the root TypeError or a path-conflict TypeError. -/
theorem set_err (data : Value) (route : List String) (value : Value) (ow : Bool)
    (e : SetErr) (h : _set data route value ow = .error e) :
    (∃ ty, e = .rootNotMapping ty) ∨ ∃ s ty, e = .conflict s ty := by
  by_cases hR : route = []
  · subst hR; simp [_set] at h
  · rw [_set, dif_neg hR] at h
    rcases data with _ | b | n | s | xs | es <;> simp only [setNonEmpty] at h
    · exact .inr (setWalk_err _ _ _ _ _ _ h)
    · split at h
      · exact .inr (setWalk_err _ _ _ _ _ _ h)
      · simp at h; exact .inl ⟨_, h.symm⟩
    · split at h
      · exact .inr (setWalk_err _ _ _ _ _ _ h)
      · simp at h; exact .inl ⟨_, h.symm⟩
    · split at h
      · exact .inr (setWalk_err _ _ _ _ _ _ h)
      · simp at h; exact .inl ⟨_, h.symm⟩
    · split at h
      · exact .inr (setWalk_err _ _ _ _ _ _ h)
      · simp at h; exact .inl ⟨_, h.symm⟩
    · exact .inr (setWalk_err _ _ _ _ _ _ h)

/-- A successful traversal along a non-empty route starts at a dict. -/
theorem getGo_ok_head (d : Value) (s : String) (r : List String) (w : Value)
    (h : getGo d (s :: r) = .ok w) : ∃ es, d = .map es := by
  cases d <;> simp [getGo] at h
  exact ⟨_, rfl⟩

/-- If a proper prefix P ++ [s] of the parents resolves to a non-mapping
value in the input, the strict walk fails with a conflict at s carrying
the type of that value. -/
theorem setWalk_conflict_strict : ∀ (P : List String) (cur : Value) (s : String)
    (rest2 : List String) (w : Value) (last : String) (v : Value),
    getGo cur (P ++ [s]) = .ok w → w.isMap = false →
    setWalk cur (P ++ s :: rest2) last v false = .error (.conflict s w.typeName) := by
  intro P
  induction P with
  | nil =>
    intro cur s rest2 w last v hg hw
    obtain ⟨es, rfl⟩ := getGo_ok_head _ _ _ _ hg
    simp only [List.nil_append] at hg ⊢
    simp only [getGo] at hg
    cases hl : lookup es s with
    | some u =>
      rw [hl] at hg
      simp [getGo] at hg
      subst hg
      simp [setWalk, hl, hw]
    | none => rw [hl] at hg; simp at hg
  | cons p P1 ih =>
    intro cur s rest2 w last v hg hw
    obtain ⟨es, rfl⟩ := getGo_ok_head _ _ _ _ hg
    simp only [List.cons_append] at hg ⊢
    simp only [getGo] at hg
    cases hl : lookup es p with
    | some m =>
      rw [hl] at hg
      obtain ⟨es1, rfl⟩ : ∃ es1, m = .map es1 := by
        cases hPs : P1 ++ [s] with
        | nil => simp at hPs
        | cons x xs => rw [hPs] at hg; exact getGo_ok_head _ _ _ _ hg
      have hrec := ih _ _ rest2 _ last v hg hw
      simp [setWalk, hl, Value.isMap, hrec]
    | none => rw [hl] at hg; simp at hg

/-- After a successful walk, every prefix of the parents resolves to a
dict in the result. -/
theorem setWalk_prefix_maps : ∀ (parents : List String) (cur : Value) (last : String)
    (value : Value) (ow : Bool) (r : Value),
    setWalk cur parents last value ow = .ok r →
    ∀ (Q rest1 : List String), parents = Q ++ rest1 →
    ∃ es2, getGo r Q = .ok (.map es2) := by
  intro parents
  induction parents with
  | nil =>
    intro cur last value ow r h Q rest1 hQ
    obtain ⟨rfl, rfl⟩ : Q = [] ∧ rest1 = [] := by
      cases Q with
      | nil => exact ⟨rfl, hQ.symm⟩
      | cons a as => simp at hQ
    obtain ⟨es2, rfl⟩ := setWalk_ok_isMap _ _ _ _ _ _ h
    exact ⟨es2, rfl⟩
  | cons seg rest ih =>
    intro cur last value ow r h Q rest1 hQ
    have hsub : ∃ es c1 nxt1, cur = Value.map es ∧
        setWalk c1 rest last value ow = .ok nxt1 ∧
        r = .map (assocSet es seg nxt1) := by
      cases cur <;> simp only [setWalk] at h <;> try exact absurd h (by simp)
      rename_i es
      split at h
      · split at h
        · split at h
          · rename_i nxt1 hrec; simp at h; exact ⟨es, _, _, rfl, hrec, h.symm⟩
          · simp at h
        · split at h
          · split at h
            · rename_i nxt1 hrec; simp at h; exact ⟨es, _, _, rfl, hrec, h.symm⟩
            · simp at h
          · simp at h
      · split at h
        · rename_i nxt1 hrec; simp at h; exact ⟨es, _, _, rfl, hrec, h.symm⟩
        · simp at h
    obtain ⟨es, c1, nxt1, rfl, hrec, rfl⟩ := hsub
    cases Q with
    | nil => exact ⟨_, rfl⟩
    | cons q Q1 =>
      simp only [List.cons_append, List.cons.injEq] at hQ
      obtain ⟨rfl, hrest⟩ := hQ
      obtain ⟨es2, hes2⟩ := ih _ _ _ _ _ hrec Q1 rest1 hrest
      exact ⟨es2, by simp [getGo, lookup_assocSet_self, hes2]⟩

/-! The specification notion of repeated key lookup, for claim C6. -/

/-- v is reachable from d by repeated key lookup along the route. -/
inductive KeyPath : Value → List String → Value → Prop where
  | nil (d : Value) : KeyPath d [] d
  | cons {es : List (String × Value)} {s : String} {m v : Value} {r : List String}
      (hl : lookup es s = some m) (hr : KeyPath m r v) : KeyPath (.map es) (s :: r) v

theorem getGo_ok_iff : ∀ (r : List String) (d v : Value),
    getGo d r = .ok v ↔ KeyPath d r v := by
  intro r
  induction r with
  | nil =>
    intro d v
    constructor
    · intro h; simp only [getGo, Except.ok.injEq] at h; subst h; exact .nil d
    · intro h; cases h; rfl
  | cons s rest ih =>
    intro d v
    constructor
    · intro h
      cases d <;> simp only [getGo] at h <;> try exact absurd h (by simp)
      rename_i es
      cases hl : lookup es s with
      | some m => rw [hl] at h; exact .cons hl ((ih _ _).1 h)
      | none => rw [hl] at h; simp at h
    · intro h
      cases h with
      | cons hl hr =>
        simp only [getGo, hl]
        exact (ih _ _).2 hr

theorem getGo_err_notAMapping : ∀ (r : List String) (d : Value) (s ty : String),
    getGo d r = .error (.notAMapping s ty) →
    ∃ P rest w, r = P ++ s :: rest ∧ KeyPath d P w ∧ w.isMap = false ∧
      ty = w.typeName := by
  intro r
  induction r with
  | nil => intro d s ty h; simp [getGo] at h
  | cons x xs ih =>
    intro d s ty h
    cases d <;> simp only [getGo] at h
    case map es =>
      cases hl : lookup es x with
      | some m =>
        rw [hl] at h
        obtain ⟨P, rest, w, hr, hp, hw, hty⟩ := ih _ _ _ h
        exact ⟨x :: P, rest, w, by simp [hr], .cons hl hp, hw, hty⟩
      | none => rw [hl] at h; simp at h
    all_goals
      simp only [Except.error.injEq, GetErr.notAMapping.injEq] at h
      obtain ⟨rfl, rfl⟩ := h
      exact ⟨[], xs, _, rfl, .nil _, rfl, rfl⟩

theorem getGo_err_keyNotFound : ∀ (r : List String) (d : Value) (s : String),
    getGo d r = .error (.keyNotFound s) →
    ∃ P rest es, r = P ++ s :: rest ∧ KeyPath d P (.map es) ∧
      lookup es s = none := by
  intro r
  induction r with
  | nil => intro d s h; simp [getGo] at h
  | cons x xs ih =>
    intro d s h
    cases d <;> simp only [getGo] at h <;> try exact absurd h (by simp)
    rename_i es
    cases hl : lookup es x with
    | some m =>
      rw [hl] at h
      obtain ⟨P, rest, es1, hr, hp, hn⟩ := ih _ _ h
      exact ⟨x :: P, rest, es1, by simp [hr], .cons hl hp, hn⟩
    | none =>
      rw [hl] at h
      simp only [Except.error.injEq, GetErr.keyNotFound.injEq] at h
      subst h
      exact ⟨[], xs, es, rfl, .nil _, hl⟩

theorem get_eq_getGo (d : Value) (r : List String) : _get d r = getGo d r := by
  cases r <;> simp [_get, getGo]

example : _set (.map [("a", .int 1)]) ["a"] (.int 2) false
    = .ok (.map [("a", .int 2)]) := rfl

example : _set (.map [("a", .int 1)]) ["a", "b"] (.int 2) false
    = .error (.conflict "a" "int") := rfl

example : _set (.map [("a", .int 1)]) ["a", "b"] (.int 2) true
    = .ok (.map [("a", .map [("b", .int 2)])]) := rfl

example : _set .null ["x", "y"] (.bool true) false
    = .ok (.map [("x", .map [("y", .bool true)])]) := rfl

example : _get (.map [("server", .map [("port", .int 8080)])]) ["server", "port"]
    = .ok (.int 8080) := rfl

example : _get (.map [("server", .map [("port", .int 8080)])]) ["server", "host"]
    = .error (.keyNotFound "host") := rfl

/-! ## Heap lemmas -/

theorem Heap.size_push (h : Heap) (o : HObj) : (h.push o).size = h.size + 1 := by
  simp [Heap.push, Heap.size]

theorem Heap.size_set (h : Heap) (a : Nat) (o : HObj) :
    (h.set a o).size = h.size := by
  simp [Heap.set, Heap.size]

theorem Heap.get_push_lt (h : Heap) (o : HObj) (a : Nat) (ha : a < h.size) :
    (h.push o).get a = h.get a :=
  List.getElem?_append_left ha

theorem Heap.get_push_self (h : Heap) (o : HObj) :
    (h.push o).get h.size = some o :=
  List.getElem?_concat_length h.objs o

theorem Heap.get_push_ge (h : Heap) (o : HObj) (a : Nat) (ha : h.size < a) :
    (h.push o).get a = none := by
  apply List.getElem?_eq_none
  simpa [Heap.push, Heap.size] using ha

theorem Heap.get_set_ne (h : Heap) (a b : Nat) (o : HObj) (hab : a ≠ b) :
    (h.set a o).get b = h.get b :=
  List.getElem?_set_ne hab

theorem Heap.get_set_self (h : Heap) (a : Nat) (o : HObj) (ha : a < h.size) :
    (h.set a o).get a = some o :=
  List.getElem?_set_self ha

theorem Heap.get_lt (h : Heap) (a : Nat) (o : HObj) (hg : h.get a = some o) :
    a < h.size :=
  (List.getElem?_eq_some.mp hg).1

theorem Heap.get_total (h : Heap) (a : Nat) (ha : a < h.size) :
    ∃ o, h.get a = some o :=
  ⟨_, List.getElem?_eq_getElem ha⟩

theorem Heap.wf_spec (h : Heap) (hwf : h.wf = true) (a : Nat)
    (es : List (String × Nat)) (hg : h.get a = some (.dict es)) :
    ∀ p : String × Nat, p ∈ es → p.2 < h.size := by
  intro p hp
  simp only [Heap.wf] at hwf
  have h1 := List.all_eq_true.mp hwf _ (List.getElem?_mem hg)
  have h2 := List.all_eq_true.mp h1 p hp
  exact of_decide_eq_true h2

theorem lookupA_mem (es : List (String × Nat)) (k : String) (a : Nat)
    (hl : lookupA es k = some a) : (k, a) ∈ es := by
  induction es with
  | nil => simp [lookupA] at hl
  | cons q rest ih =>
    obtain ⟨k1, a1⟩ := q
    simp only [lookupA] at hl
    split at hl
    · rename_i heq
      simp only [Option.some.injEq] at hl
      subst heq; subst hl
      exact List.mem_cons_self _ _
    · exact List.mem_cons_of_mem _ (ih hl)

theorem assocSetA_mem (es : List (String × Nat)) (k : String) (a : Nat) :
    ∀ p : String × Nat, p ∈ assocSetA es k a → p ∈ es ∨ p = (k, a) := by
  induction es with
  | nil =>
    intro p hp
    simp only [assocSetA, List.mem_singleton] at hp
    exact .inr hp
  | cons q rest ih =>
    intro p hp
    obtain ⟨k1, a1⟩ := q
    simp only [assocSetA] at hp
    split at hp
    · rcases List.mem_cons.mp hp with h1 | h1
      · exact .inr h1
      · exact .inl (List.mem_cons_of_mem _ h1)
    · rcases List.mem_cons.mp hp with h1 | h1
      · exact .inl (h1 ▸ List.mem_cons_self _ _)
      · rcases ih p h1 with h2 | h2
        · exact .inl (List.mem_cons_of_mem _ h2)
        · exact .inr h2

theorem reach_transfer (h h2 : Heap) (hwf : h.wf = true)
    (agree : ∀ x, x < h.size → h2.get x = h.get x)
    (a : Nat) (ha : a < h.size) :
    ∀ c, Reach h2 a c → Reach h a c ∧ c < h.size := by
  intro c hr
  induction hr with
  | refl => exact ⟨.refl a, ha⟩
  | step hr hg hm ih =>
    obtain ⟨hrh, hb⟩ := ih
    rw [agree _ hb] at hg
    exact ⟨.step hrh hg hm, Heap.wf_spec h hwf _ _ hg _ hm⟩

theorem reach_regionV (h : Heap) (n va : Nat) (hrc : RegionClosedV h n va) :
    ∀ r c, n ≤ r → Reach h r c → n ≤ c ∨ Reach h va c := by
  intro r c hrn hr
  induction hr with
  | refl => exact .inl hrn
  | step hr hg hm ih =>
    rcases ih with hb | hb
    · rcases hrc _ _ hb hg _ hm with ⟨hc, _⟩ | hc
      · exact .inl hc
      · exact .inr (hc ▸ Reach.refl _)
    · exact .inr (.step hb hg hm)

theorem regionClosed_push_dictNil (h : Heap) (n : Nat) (hrc : RegionClosed h n) :
    RegionClosed (h.push (.dict [])) n := by
  intro a es ha hg p hp
  rcases Nat.lt_trichotomy a h.size with hlt | heq | hgt
  · rw [Heap.get_push_lt _ _ _ hlt] at hg
    have hb := hrc a es ha hg p hp
    exact ⟨hb.1, by rw [Heap.size_push]; exact Nat.lt_succ_of_lt hb.2⟩
  · subst heq
    rw [Heap.get_push_self] at hg
    simp only [Option.some.injEq, HObj.dict.injEq] at hg
    subst hg
    simp at hp
  · rw [Heap.get_push_ge _ _ _ hgt] at hg
    simp at hg

/-- The entry-list clone preserves pre-existing objects, only grows the
heap, produces entry addresses inside the fresh region, and keeps the
fresh region closed — provided rec does the same for a single address. -/
theorem dcopyGo_spec (rec : Heap → Nat → Option (Heap × Nat))
    (hrec : ∀ h a h1 b, rec h a = some (h1, b) →
      (∀ x, x < h.size → h1.get x = h.get x) ∧
      h.size ≤ b ∧ b < h1.size ∧ RegionClosed h1 h.size) :
    ∀ (es : List (String × Nat)) h h1 es1, dcopyGo rec h es = some (h1, es1) →
      (∀ x, x < h.size → h1.get x = h.get x) ∧
      h.size ≤ h1.size ∧
      (∀ p : String × Nat, p ∈ es1 → h.size ≤ p.2 ∧ p.2 < h1.size) ∧
      RegionClosed h1 h.size := by
  intro es
  induction es with
  | nil =>
    intro h h1 es1 hgo
    simp only [dcopyGo, Option.some.injEq, Prod.mk.injEq] at hgo
    obtain ⟨rfl, rfl⟩ := hgo
    refine ⟨fun x hx => rfl, le_refl _, by simp, ?_⟩
    intro a es2 ha hg p hp
    exact absurd (Heap.get_lt _ _ _ hg) (Nat.not_lt.mpr ha)
  | cons q rest ihes =>
    intro h h1 es1 hgo
    obtain ⟨k, a⟩ := q
    simp only [dcopyGo] at hgo
    split at hgo
    · simp at hgo
    · rename_i hA a1 hda
      split at hgo
      · simp at hgo
      · rename_i hB rest1 hdl
        simp only [Option.some.injEq, Prod.mk.injEq] at hgo
        obtain ⟨rfl, rfl⟩ := hgo
        obtain ⟨ha1, ha2, ha3, ha4⟩ := hrec h a hA a1 hda
        obtain ⟨hb1, hb2, hb3, hb4⟩ := ihes hA hB rest1 hdl
        have hAsize : h.size ≤ hA.size := le_of_lt (lt_of_le_of_lt ha2 ha3)
        refine ⟨?_, le_trans hAsize hb2, ?_, ?_⟩
        · intro x hx
          rw [hb1 x (lt_of_lt_of_le hx hAsize), ha1 x hx]
        · intro p hp
          rcases List.mem_cons.mp hp with h1 | h1
          · subst h1
            exact ⟨ha2, lt_of_lt_of_le ha3 hb2⟩
          · have hb := hb3 p h1
            exact ⟨le_trans hAsize hb.1, hb.2⟩
        · intro a2 es2 ha2 hg p hp
          rcases Nat.lt_or_ge a2 hA.size with hlt | hge
          · rw [hb1 a2 hlt] at hg
            have hb := ha4 a2 es2 ha2 hg p hp
            exact ⟨hb.1, lt_of_lt_of_le hb.2 hb2⟩
          · have hb := hb4 a2 es2 hge hg p hp
            exact ⟨le_trans hAsize hb.1, hb.2⟩

/-- The copy preserves every pre-existing object, allocates the clone root
in the fresh region, and the fresh region is closed: its dicts point only
into the fresh region. -/
theorem dcopy_spec : ∀ fuel h a h1 b, dcopy fuel h a = some (h1, b) →
    (∀ x, x < h.size → h1.get x = h.get x) ∧
    h.size ≤ b ∧ b < h1.size ∧ RegionClosed h1 h.size := by
  intro fuel
  induction fuel with
  | zero =>
    intro h a h1 b hd
    simp [dcopy] at hd
  | succ fuel ih =>
    have hpushLeaf : ∀ (h : Heap) (o : HObj), (∀ es2, o ≠ .dict es2) →
        (∀ x, x < h.size → (h.push o).get x = h.get x) ∧
        h.size ≤ h.size ∧ h.size < (h.push o).size ∧
        RegionClosed (h.push o) h.size := by
      intro h o ho
      refine ⟨fun x hx => Heap.get_push_lt _ _ _ hx, le_refl _,
        by rw [Heap.size_push]; exact Nat.lt_succ_self _, ?_⟩
      intro a es2 ha hg p hp
      rcases Nat.lt_trichotomy a h.size with hlt | heq | hgt
      · exact absurd hlt (Nat.not_lt.mpr ha)
      · subst heq
        rw [Heap.get_push_self] at hg
        simp only [Option.some.injEq] at hg
        exact absurd hg (ho es2)
      · rw [Heap.get_push_ge _ _ _ hgt] at hg
        simp at hg
    intro h a h1 b hd
    simp only [dcopy, dcopyStep] at hd
    split at hd
    · simp at hd
    · -- null leaf
      simp only [Option.some.injEq, Prod.mk.injEq] at hd
      obtain ⟨rfl, rfl⟩ := hd
      exact hpushLeaf h .null (by intro es2 he; cases he)
    · -- scalar leaf
      simp only [Option.some.injEq, Prod.mk.injEq] at hd
      obtain ⟨rfl, rfl⟩ := hd
      exact hpushLeaf h (.scalar _) (by intro es2 he; cases he)
    · -- dict
      rename_i es hes
      split at hd
      · simp at hd
      · rename_i h2 es1 hgo
        simp only [Option.some.injEq, Prod.mk.injEq] at hd
        obtain ⟨rfl, rfl⟩ := hd
        obtain ⟨hp1, hp2, hp3, hp4⟩ := dcopyGo_spec (dcopy fuel) ih es h h2 es1 hgo
        refine ⟨?_, hp2, by rw [Heap.size_push]; exact Nat.lt_succ_self _, ?_⟩
        · intro x hx
          rw [Heap.get_push_lt _ _ _ (lt_of_lt_of_le hx hp2), hp1 x hx]
        · intro a2 es2 ha2 hg p hp
          rcases Nat.lt_trichotomy a2 h2.size with hlt | heq | hgt
          · rw [Heap.get_push_lt _ _ _ hlt] at hg
            have hb := hp4 a2 es2 ha2 hg p hp
            exact ⟨hb.1, by rw [Heap.size_push]; exact Nat.lt_succ_of_lt hb.2⟩
          · subst heq
            rw [Heap.get_push_self] at hg
            simp only [Option.some.injEq, HObj.dict.injEq] at hg
            subst hg
            have hb := hp3 p hp
            exact ⟨hb.1, by rw [Heap.size_push]; exact Nat.lt_succ_of_lt hb.2⟩
          · rw [Heap.get_push_ge _ _ _ hgt] at hg
            simp at hg

/-- Extending the fresh region with an empty dict hung under cur at the
fresh address h.size preserves its invariants. -/
theorem hsetWalk_fresh_aux (h : Heap) (cur : Nat) (es : List (String × Nat))
    (seg : String) (n : Nat)
    (hnc : n ≤ cur) (hcs : cur < h.size) (hrc : RegionClosed h n)
    (hg : h.get cur = some (.dict es)) :
    (∀ x, x < n →
      (((h.push (.dict [])).set cur (.dict (assocSetA es seg h.size))).get x
        = h.get x)) ∧
    n ≤ h.size ∧
    h.size < ((h.push (.dict [])).set cur (.dict (assocSetA es seg h.size))).size ∧
    h.size ≤ ((h.push (.dict [])).set cur (.dict (assocSetA es seg h.size))).size ∧
    RegionClosed ((h.push (.dict [])).set cur (.dict (assocSetA es seg h.size))) n := by
  have hnsize : n ≤ h.size := le_of_lt (lt_of_le_of_lt hnc hcs)
  have hsz : ((h.push (.dict [])).set cur (.dict (assocSetA es seg h.size))).size
      = h.size + 1 := by
    rw [Heap.size_set, Heap.size_push]
  refine ⟨?_, hnsize, by rw [hsz]; exact Nat.lt_succ_self _,
    by rw [hsz]; exact Nat.le_succ _, ?_⟩
  · intro x hx
    rw [Heap.get_set_ne _ _ _ _ (ne_of_gt (lt_of_lt_of_le hx hnc)),
      Heap.get_push_lt _ _ _ (lt_trans (lt_of_lt_of_le hx hnc) hcs)]
  · intro a2 es2 ha2 hg2 p hp
    rw [hsz]
    by_cases hac : a2 = cur
    · subst hac
      rw [Heap.get_set_self _ _ _ (by rw [Heap.size_push]; exact Nat.lt_succ_of_lt hcs)] at hg2
      simp only [Option.some.injEq, HObj.dict.injEq] at hg2
      subst hg2
      rcases assocSetA_mem es seg h.size p hp with h1 | h1
      · have hb := hrc a2 es ha2 hg p h1
        exact ⟨hb.1, Nat.lt_succ_of_lt hb.2⟩
      · subst h1
        exact ⟨hnsize, Nat.lt_succ_self _⟩
    · rw [Heap.get_set_ne _ _ _ _ (Ne.symm hac)] at hg2
      rcases Nat.lt_trichotomy a2 h.size with hlt | heq | hgt
      · rw [Heap.get_push_lt _ _ _ hlt] at hg2
        have hb := hrc a2 es2 ha2 hg2 p hp
        exact ⟨hb.1, Nat.lt_succ_of_lt hb.2⟩
      · subst heq
        rw [Heap.get_push_self] at hg2
        simp only [Option.some.injEq, HObj.dict.injEq] at hg2
        subst hg2
        simp at hp
      · rw [Heap.get_push_ge _ _ _ hgt] at hg2
        simp at hg2

/-- The walk never touches an address below the fresh-region base, only
grows the heap, and leaves the fresh region closed up to pointers to the
installed value address. -/
theorem hsetWalk_spec : ∀ (segs : List String) (h : Heap) (cur : Nat)
    (last : String) (va : Nat) (ow : Bool) (n : Nat),
    n ≤ cur → cur < h.size → RegionClosed h n →
    (∀ x, x < n → (hsetWalk h cur segs last va ow).1.get x = h.get x) ∧
    h.size ≤ (hsetWalk h cur segs last va ow).1.size ∧
    RegionClosedV (hsetWalk h cur segs last va ow).1 n va := by
  intro segs
  induction segs with
  | nil =>
    intro h cur last va ow n hnc hcs hrc
    simp only [hsetWalk]
    split
    · rename_i es hg
      refine ⟨?_, by rw [Heap.size_set], ?_⟩
      · intro x hx
        exact Heap.get_set_ne _ _ _ _ (ne_of_gt (lt_of_lt_of_le hx hnc))
      · intro a2 es2 ha2 hg2 p hp
        rw [Heap.size_set]
        by_cases hac : a2 = cur
        · subst hac
          rw [Heap.get_set_self _ _ _ hcs] at hg2
          simp only [Option.some.injEq, HObj.dict.injEq] at hg2
          subst hg2
          rcases assocSetA_mem es last va p hp with h1 | h1
          · exact .inl (hrc a2 es ha2 hg p h1)
          · subst h1
            exact .inr rfl
        · rw [Heap.get_set_ne _ _ _ _ (Ne.symm hac)] at hg2
          exact .inl (hrc a2 es2 ha2 hg2 p hp)
    · exact ⟨fun x hx => rfl, le_refl _,
        fun a2 es2 ha2 hg2 p hp => .inl (hrc a2 es2 ha2 hg2 p hp)⟩
  | cons seg rest ih =>
    intro h cur last va ow n hnc hcs hrc
    simp only [hsetWalk]
    split
    · rename_i es hg
      split
      · rename_i nxt hl
        split
        · rename_i es2 hg2
          have hmem := lookupA_mem es seg nxt hl
          have hb := hrc cur es hnc hg (seg, nxt) hmem
          exact ih h nxt last va ow n hb.1 hb.2 hrc
        · split
          · -- overwrite the conflicting value with a fresh {} and descend
            obtain ⟨hf1, hf2, hf3, hf4, hf5⟩ :=
              hsetWalk_fresh_aux h cur es seg n hnc hcs hrc hg
            obtain ⟨hw1, hw2, hw3⟩ :=
              ih ((h.push (.dict [])).set cur (.dict (assocSetA es seg h.size)))
                h.size last va ow n hf2 hf3 hf5
            exact ⟨fun x hx => (hw1 x hx).trans (hf1 x hx),
              le_trans hf4 hw2, hw3⟩
          · exact ⟨fun x hx => rfl, le_refl _,
              fun a2 es2 ha2 hg2 p hp => .inl (hrc a2 es2 ha2 hg2 p hp)⟩
      · obtain ⟨hf1, hf2, hf3, hf4, hf5⟩ :=
          hsetWalk_fresh_aux h cur es seg n hnc hcs hrc hg
        obtain ⟨hw1, hw2, hw3⟩ :=
          ih ((h.push (.dict [])).set cur (.dict (assocSetA es seg h.size)))
            h.size last va ow n hf2 hf3 hf5
        exact ⟨fun x hx => (hw1 x hx).trans (hf1 x hx),
          le_trans hf4 hw2, hw3⟩
    · exact ⟨fun x hx => rfl, le_refl _,
        fun a2 es2 ha2 hg2 p hp => .inl (hrc a2 es2 ha2 hg2 p hp)⟩

/-- Framing and freshness for a walk started on a prepared root. -/
theorem hset_branch_aux (h h2 : Heap) (rootB : Nat) (parents : List String)
    (last : String) (va : Nat) (ow : Bool)
    (hwf : h.wf = true) (hva : va < h.size)
    (hpres : ∀ x, x < h.size → h2.get x = h.get x)
    (hrb : h.size ≤ rootB) (hrbs : rootB < h2.size)
    (hrc : RegionClosed h2 h.size) :
    (∀ x, x < h.size → (hsetWalk h2 rootB parents last va ow).1.get x = h.get x) ∧
    (∀ c, Reach (hsetWalk h2 rootB parents last va ow).1 rootB c →
      h.size ≤ c ∨ Reach h va c) := by
  obtain ⟨hw1, hw2, hw3⟩ :=
    hsetWalk_spec parents h2 rootB last va ow h.size hrb hrbs hrc
  have hpres2 : ∀ x, x < h.size →
      (hsetWalk h2 rootB parents last va ow).1.get x = h.get x :=
    fun x hx => (hw1 x hx).trans (hpres x hx)
  refine ⟨hpres2, ?_⟩
  intro c hreach
  rcases reach_regionV _ _ _ hw3 rootB c hrb hreach with hc | hc
  · exact .inl hc
  · exact .inr (reach_transfer h _ hwf hpres2 va hva c hc).1

/-- The three walk-running branches of hset, factored: framing, freshness
of the result document, and sharing with the input only through va. -/
theorem hset_run_aux (h h2 : Heap) (rootB dataA va : Nat) (parents : List String)
    (last : String) (ow : Bool)
    (hwf : h.wf = true) (hda : dataA < h.size) (hva : va < h.size)
    (hpres : ∀ x, x < h.size → h2.get x = h.get x)
    (hrb : h.size ≤ rootB) (hrbs : rootB < h2.size)
    (hrc : RegionClosed h2 h.size) :
    ∀ res : Heap × Except HErr Nat,
    (match hsetWalk h2 rootB parents last va ow with
      | (h3, none) => (h3, Except.ok rootB)
      | (h3, some e) => (h3, Except.error e)) = res →
    (∀ x, x < h.size → res.1.get x = h.get x) ∧
    (∀ rA, res.2 = .ok rA → ∀ c, Reach res.1 rA c → h.size ≤ c ∨ Reach h va c) ∧
    (∀ rA c, res.2 = .ok rA → Reach res.1 rA c → Reach res.1 dataA c →
      Reach h va c ∧ Reach h dataA c) := by
  intro res hres
  obtain ⟨hA1, hA2⟩ :=
    hset_branch_aux h h2 rootB parents last va ow hwf hva hpres hrb hrbs hrc
  cases hw : hsetWalk h2 rootB parents last va ow with
  | mk h3 st =>
    rw [hw] at hres hA1 hA2
    cases st with
    | none =>
      simp only at hres
      subst hres
      refine ⟨hA1, ?_, ?_⟩
      · intro rA hA c hc
        simp only [Except.ok.injEq] at hA
        subst hA
        exact hA2 c hc
      · intro rA c hA hc hcd
        simp only [Except.ok.injEq] at hA
        subst hA
        have hdc := reach_transfer h h3 hwf hA1 dataA hda c hcd
        rcases hA2 c hc with h1 | h1
        · exact absurd hdc.2 (Nat.not_lt.mpr h1)
        · exact ⟨h1, hdc.1⟩
    | some e =>
      simp only at hres
      subst hres
      exact ⟨hA1, fun rA hA => by simp at hA, fun rA c hA => by simp at hA⟩

/-- Claim C1 (amended).  For every heap, document address, value address,
route and conflict policy: (1) the call leaves every pre-existing object —
in particular the entire document reachable from dataA — untouched,
whether it succeeds or raises; (2) every address reachable from a
successfully returned document is either freshly allocated or already
reachable from the value address va; so (3) any mutable substructure
shared between the result and the original document was already shared
between the caller's value and the document before the call.  The claim
as frozen (no sharing with D at all, for every V) fails because the value
is installed by reference: see the counterexample. -/
theorem claim1_set_no_alias_amended (h : Heap) (dataA va : Nat)
    (route : List String) (ow : Bool) (fuel : Nat)
    (hwf : h.wf = true) (hda : dataA < h.size) (hva : va < h.size) :
    (∀ x, x < h.size → (hset h dataA route va ow fuel).1.get x = h.get x) ∧
    (∀ rA, (hset h dataA route va ow fuel).2 = .ok rA →
      ∀ c, Reach (hset h dataA route va ow fuel).1 rA c →
        h.size ≤ c ∨ Reach h va c) ∧
    (∀ rA c, (hset h dataA route va ow fuel).2 = .ok rA →
      Reach (hset h dataA route va ow fuel).1 rA c →
      Reach (hset h dataA route va ow fuel).1 dataA c →
      Reach h va c ∧ Reach h dataA c) := by
  by_cases hr : route = []
  · subst hr
    refine ⟨fun x hx => rfl, ?_, ?_⟩
    · intro rA hA c hc
      have hA2 : (Except.ok va : Except HErr Nat) = .ok rA := hA
      cases hA2
      exact .inr hc
    · intro rA c hA hc hcd
      have hA2 : (Except.ok va : Except HErr Nat) = .ok rA := hA
      cases hA2
      exact ⟨hc, hcd⟩
  · simp only [hset, dif_neg hr]
    cases hdc : dcopy fuel h dataA with
    | none =>
      simp only [hdc]
      exact ⟨fun x hx => by trivial, fun rA hA => by simp at hA,
        fun rA c hA => by simp at hA⟩
    | some pr =>
      obtain ⟨h1, rootA⟩ := pr
      simp only [hdc]
      obtain ⟨hd1, hd2, hd3, hd4⟩ := dcopy_spec fuel h dataA h1 rootA hdc
      have hsz1 : h.size ≤ h1.size := le_of_lt (lt_of_le_of_lt hd2 hd3)
      have hpresP : ∀ x, x < h.size → (h1.push (.dict [])).get x = h.get x := by
        intro x hx
        rw [Heap.get_push_lt _ _ _ (lt_of_lt_of_le hx hsz1)]
        exact hd1 x hx
      have hrbsP : h1.size < (h1.push (HObj.dict [])).size := by
        rw [Heap.size_push]; exact Nat.lt_succ_self _
      have hrcP : RegionClosed (h1.push (.dict [])) h.size :=
        regionClosed_push_dictNil h1 h.size hd4
      cases hg : h1.get rootA with
      | none =>
        simp only [hg]
        split
        · exact hset_run_aux h (h1.push (.dict [])) h1.size dataA va
            route.dropLast (route.getLast hr) ow hwf hda hva hpresP hsz1 hrbsP hrcP _ rfl
        · exact ⟨hd1, fun rA hA => by simp at hA, fun rA c hA => by simp at hA⟩
      | some o =>
        cases o with
        | null =>
          simp only [hg]
          exact hset_run_aux h (h1.push (.dict [])) h1.size dataA va
            route.dropLast (route.getLast hr) ow hwf hda hva hpresP hsz1 hrbsP hrcP _ rfl
        | dict es =>
          simp only [hg]
          exact hset_run_aux h h1 rootA dataA va
            route.dropLast (route.getLast hr) ow hwf hda hva hd1 hd2 hd3 hd4 _ rfl
        | scalar sc =>
          simp only [hg]
          split
          · exact hset_run_aux h (h1.push (.dict [])) h1.size dataA va
              route.dropLast (route.getLast hr) ow hwf hda hva hpresP hsz1 hrbsP hrcP _ rfl
          · exact ⟨hd1, fun rA hA => by simp at hA, fun rA c hA => by simp at hA⟩

/-! ## Claim theorems -/

/-- Claim C2: if _set(D, R, V, overwrite_conflicts=p) succeeds and returns
D1, then _get(D1, R) succeeds and returns exactly V, for every route R
including the empty route (round-trip). -/
theorem claim2_roundtrip (D : Value) (R : List String) (V : Value) (p : Bool)
    (D1 : Value) (h : _set D R V p = .ok D1) : _get D1 R = .ok V := by
  by_cases hR : R = []
  · subst hR
    have h2 : (Except.ok V : Except SetErr Value) = .ok D1 := h
    cases h2
    rfl
  · obtain ⟨ps, l, rfl⟩ : ∃ ps l, R = ps ++ [l] :=
      ⟨R.dropLast, R.getLast hR, (List.dropLast_append_getLast hR).symm⟩
    rw [set_append_last] at h
    rw [get_eq_getGo]
    exact setNonEmpty_roundtrip _ _ _ _ _ _ h

/-- Witness for claim C2 at a concrete document, route and value. -/
theorem claim2_witness :
    _get (.map [("a", .int 2)]) ["a"] = .ok (.int 2) :=
  claim2_roundtrip (.map [("a", .int 1)]) ["a"] (.int 2) false
    (.map [("a", .int 2)]) rfl

/-- Claim C7: a successful mutation is idempotent — applying the same
(route, value, policy) mutation to its own result succeeds and returns an
equal document. -/
theorem claim7_idempotent (D : Value) (R : List String) (V : Value) (p : Bool)
    (D1 : Value) (h : _set D R V p = .ok D1) : _set D1 R V p = .ok D1 := by
  by_cases hR : R = []
  · subst hR
    have h2 : (Except.ok V : Except SetErr Value) = .ok D1 := h
    cases h2
    rfl
  · obtain ⟨ps, l, rfl⟩ : ∃ ps l, R = ps ++ [l] :=
      ⟨R.dropLast, R.getLast hR, (List.dropLast_append_getLast hR).symm⟩
    rw [set_append_last] at h ⊢
    exact setNonEmpty_idem _ _ _ _ _ _ h

/-- Witness for claim C7 at a concrete document, route and value. -/
theorem claim7_witness :
    _set (.map [("a", .int 2)]) ["a"] (.int 2) false = .ok (.map [("a", .int 2)]) :=
  claim7_idempotent (.map [("a", .int 1)]) ["a"] (.int 2) false
    (.map [("a", .int 2)]) rfl

/-- Claim C9: with overwrite_conflicts=True, _set always succeeds, for
every document (None and non-mapping roots included), every route — in
particular every non-empty one — and every value; no failure branch is
reachable. -/
theorem claim9_total_overwrite (D : Value) (R : List String) (V : Value) :
    ∃ D1, _set D R V true = .ok D1 := by
  by_cases hR : R = []
  · subst hR
    exact ⟨V, rfl⟩
  · obtain ⟨ps, l, rfl⟩ : ∃ ps l, R = ps ++ [l] :=
      ⟨R.dropLast, R.getLast hR, (List.dropLast_append_getLast hR).symm⟩
    rw [set_append_last]
    exact setNonEmpty_total_ow D ps l V

/-- Claim C10: every exception of _set is the bootstrap root TypeError or
a path-conflict TypeError; in particular the defensive final-parent guard
(lines 157-161, SetErr.finalParentNotMapping) can never fire, under either
conflict policy — and neither can the non-mapping loop descend
(SetErr.descendNonMapping). -/
theorem claim10_defensive_guard_unreachable (D : Value) (R : List String)
    (V : Value) (ow : Bool) (e : SetErr) (h : _set D R V ow = .error e) :
    (∃ ty, e = .rootNotMapping ty) ∨ ∃ s ty, e = .conflict s ty :=
  set_err D R V ow e h

/-- Witness for claim C10 at a concrete failing input. -/
theorem claim10_witness :
    (∃ ty, SetErr.rootNotMapping "int" = .rootNotMapping ty) ∨
      ∃ s ty, SetErr.rootNotMapping "int" = .conflict s ty :=
  claim10_defensive_guard_unreachable (.int 5) ["a"] .null false
    (.rootNotMapping "int") rfl

/-- Claim C6: _get with an empty route returns the document itself; a
success returns exactly the value reachable from D by repeated key lookup
along R (and only then); a NotAMapping TypeError arises exactly when the
walk reached a non-mapping value, carrying the offending segment and that
value's type name; a KeyError arises when the walked-to mapping lacks the
segment. -/
theorem claim6_get_characterization (D : Value) (R : List String) :
    (_get D [] = .ok D) ∧
    (∀ v, _get D R = .ok v ↔ KeyPath D R v) ∧
    (∀ s ty, _get D R = .error (.notAMapping s ty) →
      ∃ P rest w, R = P ++ s :: rest ∧ KeyPath D P w ∧ w.isMap = false ∧
        ty = w.typeName) ∧
    (∀ s, _get D R = .error (.keyNotFound s) →
      ∃ P rest es, R = P ++ s :: rest ∧ KeyPath D P (.map es) ∧
        lookup es s = none) := by
  refine ⟨rfl, fun v => ?_, fun s ty h => ?_, fun s h => ?_⟩
  · rw [get_eq_getGo]
    exact getGo_ok_iff R D v
  · rw [get_eq_getGo] at h
    exact getGo_err_notAMapping R D s ty h
  · rw [get_eq_getGo] at h
    exact getGo_err_keyNotFound R D s h

/-- Witness for claim C6: the repeated-key-lookup reading at the spec
scenario A. -/
theorem claim6_witness :
    _get (.map [("server", .map [("port", .int 8080)])]) ["server", "port"]
      = .ok (.int 8080) :=
  ((claim6_get_characterization (.map [("server", .map [("port", .int 8080)])])
      ["server", "port"]).2.1 (.int 8080)).2
    (.cons rfl (.cons rfl (.nil _)))

/-- Claim C5: if some (non-empty) proper prefix P ++ [s] of R resolves in
D to a non-mapping value w, then strict _set fails with the conflict
TypeError carrying the offending segment s (and the type of w), while
overwriting _set succeeds and every proper prefix of R addresses a mapping
in the result: each conflicting non-mapping on the path was replaced by a
mapping before descending. -/
theorem claim5_conflict_policy (D V : Value) (R P rest : List String) (s : String)
    (w : Value) (hR : R = P ++ s :: rest) (hrest : rest ≠ [])
    (hw : _get D (P ++ [s]) = .ok w) (hwm : w.isMap = false) :
    _set D R V false = .error (.conflict s w.typeName) ∧
    ∃ D1, _set D R V true = .ok D1 ∧
      ∀ Q rest1, R = Q ++ rest1 → rest1 ≠ [] →
        ∃ es2, _get D1 Q = .ok (.map es2) := by
  subst hR
  rw [get_eq_getGo] at hw
  obtain ⟨es0, rfl⟩ : ∃ es0, D = .map es0 := by
    cases hps : P ++ [s] with
    | nil => simp at hps
    | cons x xs =>
      rw [hps] at hw
      exact getGo_ok_head _ _ _ _ hw
  obtain ⟨mid, l, rfl⟩ : ∃ mid l, rest = mid ++ [l] :=
    ⟨rest.dropLast, rest.getLast hrest, (List.dropLast_append_getLast hrest).symm⟩
  have hR2 : P ++ s :: (mid ++ [l]) = (P ++ s :: mid) ++ [l] := by simp
  constructor
  · rw [hR2, set_append_last]
    exact setWalk_conflict_strict P _ s mid w l V hw hwm
  · obtain ⟨D1, hD1⟩ := setNonEmpty_total_ow (.map es0) (P ++ s :: mid) l V
    refine ⟨D1, by rw [hR2, set_append_last]; exact hD1, ?_⟩
    intro Q rest1 hQ hrest1
    have hwalk : setWalk (.map es0) (P ++ s :: mid) l V true = .ok D1 := hD1
    have hdrop : P ++ s :: mid = Q ++ rest1.dropLast := by
      have h1 := congrArg List.dropLast hQ
      rw [hR2, List.dropLast_concat, List.dropLast_append_of_ne_nil _ hrest1] at h1
      exact h1
    obtain ⟨es2, hes2⟩ :=
      setWalk_prefix_maps _ _ _ _ _ _ hwalk Q rest1.dropLast hdrop
    refine ⟨es2, ?_⟩
    rw [get_eq_getGo]
    exact hes2

/-- Witness for claim C5 at the spec scenario C: D = {"a": 1},
R = ["a", "b"]. -/
theorem claim5_witness :
    _set (.map [("a", .int 1)]) ["a", "b"] (.bool true) false
      = .error (.conflict "a" "int") ∧
    ∃ D1, _set (.map [("a", .int 1)]) ["a", "b"] (.bool true) true = .ok D1 ∧
      ∀ Q rest1, ["a", "b"] = Q ++ rest1 → rest1 ≠ [] →
        ∃ es2, _get D1 Q = .ok (.map es2) :=
  claim5_conflict_policy (.map [("a", .int 1)]) (.bool true) ["a", "b"] []
    ["b"] "a" (.int 1) rfl (by simp) rfl rfl

/-- Claim C3 (code evaluation): when the extension is unsupported and no
codec is given, _infer_codec raises a TypeError outside the try block of
both facades, so get raises instead of returning None and set raises
instead of returning False (the save primitive is not reached).  This
contradicts the claim and the dead fallthrough branches (lines 119, 191)
of the source itself. -/
theorem claim3_unsupported_codec_raises (B : Backend) (route : List String)
    (value : Value) (ow : Bool) :
    get B ".txt" none route = .error .typeError ∧
    (set B ".txt" none route value ow).result = .error .typeError ∧
    (set B ".txt" none route value ow).saved = none :=
  ⟨rfl, rfl, rfl⟩

/-- Claim C4 (code evaluation): _set with a falsy route returns the value
argument itself — on the heap the very address va is returned and no
allocation or copy happens at all, contradicting the docstring's "replaced
with a deep copy of value"; on pure trees the result equals V for every
prior document. -/
theorem claim4_empty_route_no_copy (h : Heap) (dataA va : Nat) (ow : Bool)
    (fuel : Nat) (D V : Value) (p : Bool) :
    hset h dataA [] va ow fuel = (h, .ok va) ∧ _set D [] V p = .ok V :=
  ⟨rfl, rfl⟩

/-- Claim C8: the backend save primitive is invoked only after _set has
returned a new document (with the codec resolved and the load successful),
and whenever the mutation step fails the facade saves nothing and returns
False. -/
theorem claim8_save_only_after_mutation (B : Backend) (suffix : String)
    (codec : Option CodecArg) (route : List String) (value : Value) (ow : Bool) :
    (∀ fmt d, (set B suffix codec route value ow).saved = some (fmt, d) →
      ∃ data, _infer_codec suffix codec = .ok fmt ∧ B.load fmt = .ok data ∧
        _set data route value ow = .ok d) ∧
    (∀ fmt data e, _infer_codec suffix codec = .ok fmt → B.load fmt = .ok data →
      _set data route value ow = .error e →
      set B suffix codec route value ow = ⟨.ok false, none⟩) := by
  constructor
  · intro fmt d hs
    cases hi : _infer_codec suffix codec with
    | error e0 =>
      simp only [set, hi] at hs
      simp at hs
    | ok fmt1 =>
      cases hl : B.load fmt1 with
      | error e1 =>
        simp only [set, hi, hl] at hs
        simp at hs
      | ok data =>
        cases hm : _set data route value ow with
        | error e2 =>
          simp only [set, hi, hl, hm] at hs
          simp at hs
        | ok nd =>
          cases hsv : B.save fmt1 nd with
          | error e3 =>
            simp only [set, hi, hl, hm, hsv] at hs
            simp at hs
            obtain ⟨rfl, rfl⟩ := hs
            exact ⟨data, rfl, hl, hm⟩
          | ok u =>
            simp only [set, hi, hl, hm, hsv] at hs
            simp at hs
            obtain ⟨rfl, rfl⟩ := hs
            exact ⟨data, rfl, hl, hm⟩
  · intro fmt data e hi hl hm
    simp [set, hi, hl, hm, setHandler]

/-- Witness for claim C8: a backend whose JSON document is the non-mapping
5; the mutation fails, nothing is saved and the call returns False. -/
theorem claim8_witness :
    set ⟨.ok (.int 5), .ok .null, fun _ => .ok (), fun _ => .ok ()⟩
      ".json" none ["a"] .null false = ⟨.ok false, none⟩ :=
  (claim8_save_only_after_mutation
      ⟨.ok (.int 5), .ok .null, fun _ => .ok (), fun _ => .ok ()⟩
      ".json" none ["a"] .null false).2
    .json (.int 5) (.rootNotMapping "int") rfl rfl rfl

/-- Claim C1 counterexample: pass the document itself as the new value
(V = D, both address 0, a dict) with route ["k"]; the call succeeds and
the returned document reaches address 0 — the original document's own
mutable dict — so the result shares mutable substructure with D. -/
theorem claim1_counterexample :
    (hset ⟨[.dict [("x", 1)], .scalar "one"]⟩ 0 ["k"] 0 true 3).2 = .ok 3 ∧
    Reach (hset ⟨[.dict [("x", 1)], .scalar "one"]⟩ 0 ["k"] 0 true 3).1 3 0 ∧
    Reach (hset ⟨[.dict [("x", 1)], .scalar "one"]⟩ 0 ["k"] 0 true 3).1 0 0 ∧
    (hset ⟨[.dict [("x", 1)], .scalar "one"]⟩ 0 ["k"] 0 true 3).1.get 0
      = some (.dict [("x", 1)]) := by
  refine ⟨rfl, ?_, Reach.refl 0, rfl⟩
  exact @Reach.step _ 3 3 0 [("x", 2), ("k", 0)] "k" (Reach.refl 3) rfl (by simp)

/-- Witness for claim C1 (amended) at a concrete heap: the original
document object is untouched by the call. -/
theorem claim1_witness :
    (hset ⟨[.dict [("x", 1)], .scalar "one"]⟩ 0 ["k"] 1 false 3).1.get 0
      = some (.dict [("x", 1)]) :=
  ((claim1_set_no_alias_amended ⟨[.dict [("x", 1)], .scalar "one"]⟩ 0 1 ["k"]
      false 3 rfl (by decide) (by decide)).1 0 (by decide)).trans rfl

end Cfg
